import Mathlib

/-!
Shallow embedding of `src/ExampleScenes/parse_events.py` (the function
`parse_scene`, lines 8-145), together with proofs about it.

A file is modelled, after `readlines`, as a `List Line` where a `Line` is the
list of its characters (the trailing `'\n'` may or may not be present; every
primitive below treats it the way the corresponding Python operation does).
Python strings are `List Char`, Python dicts keyed by strings are association
lists in insertion order with in-place update, and the absence of a dict key
is `Option.none`.

The only loop of the source that is not structurally bounded is the
persistent-calls loop (lines 93-136): it sets `m = k`, runs the lookahead
`while m < min(k + 10, len(lines)) and not lines[m].startswith('      -')`,
and then sets `k = m`.  The loop state is exactly `k` (plus the append-only
`comp_data['events']`, which the loop condition never reads), so whenever an
iteration ends with `m = k` the source repeats the same iteration forever.
The embedding `callsLoop` returns `none` in that case, modelling the
divergence of the source; when `m > k` the loop makes progress and the
embedding recurses.  All `none` results of `callsLoop` (and of the functions
that propagate it: `eventsScan`, `extractComp`, `scanComps`, `parse_scene`)
mean "the Python source does not terminate on this input".
-/

set_option linter.unusedVariables false

namespace ParseEvents

/-- A line of the scene file, as a list of characters. -/
abbrev Line := List Char

/-- Build a `Line` from a string literal. -/
def toL (s : String) : Line := s.data

/-- `lines[n]` — every access in the source is guarded by `n < len(lines)`,
so the default `[]` is never observable. -/
def lineAt (lines : List Line) (n : Nat) : Line := lines.getD n []

/-- Python substring test `pat in s`. -/
def containsSub (pat : Line) : Line → Bool
  | [] => pat.isPrefixOf []
  | c :: rest => pat.isPrefixOf (c :: rest) || containsSub pat rest

/-- The suffix of `s` after the first occurrence of `pat` (none if `pat` does
not occur). -/
def afterFirst (pat : Line) : Line → Option Line
  | [] => if pat.isPrefixOf ([] : Line) then some [] else none
  | c :: rest =>
    if pat.isPrefixOf (c :: rest) then some ((c :: rest).drop pat.length)
    else afterFirst pat rest

/-- The part of `s` strictly before the first occurrence of `pat`
(all of `s` if `pat` does not occur). -/
def upToFirst (pat : Line) : Line → Line
  | [] => []
  | c :: rest =>
    if pat.isPrefixOf (c :: rest) then [] else c :: upToFirst pat rest

/-- Python `s.split(pat)[1]`: the segment between the first occurrence of
`pat` and the following occurrence (used in the source only on lines whose
containment of `pat` was just checked, so index 1 exists). -/
def splitSub1 (pat s : Line) : Line := upToFirst pat ((afterFirst pat s).getD [])

/-- Python `str.strip()` (the lines at hand only carry ASCII whitespace). -/
def strip (s : Line) : Line :=
  ((s.dropWhile Char.isWhitespace).reverse.dropWhile Char.isWhitespace).reverse

/-- `\w` of the source's regexes (ASCII letters, digits, underscore). -/
def isWordChar (c : Char) : Bool := c.isAlphanum || c == '_'

/-- literal prefix of `re.match(r'--- !u!1 &(\d+)', line)` (source line 18) -/
def h1pre : Line := toL "--- !u!1 &"

/-- literal prefix of `re.match(r'--- !u!114 &(\d+)', line)` (source line 33) -/
def h114pre : Line := toL "--- !u!114 &"

def mNamePat : Line := toL "m_Name:"
def goPat : Line := toL "m_GameObject: \x7bfileID:"
def fidPat : Line := toL "fileID: "
def pcPat : Line := toL "m_PersistentCalls:"
def callsPat : Line := toL "m_Calls:"
def callItemPre : Line := toL "      -"
def dashPre : Line := toL "---"
def tatnPat : Line := toL "m_TargetAssemblyTypeName:"
def methodPat : Line := toL "m_MethodName:"
def argsPat : Line := toL "m_Arguments:"
def intPat : Line := toL "m_IntArgument:"
def floatPat : Line := toL "m_FloatArgument:"
def strPat : Line := toL "m_StringArgument:"
def boolPat : Line := toL "m_BoolArgument:"
def targetPat : Line := toL "m_Target: \x7bfileID:"
def colonPat : Line := toL ":"
def commaPat : Line := toL ","
def mPre : Line := toL "m_"

/-- `re.match(r'--- !u!<tag> &(\d+)', line)` for a fixed literal prefix:
the prefix must match at the start of the line, followed by at least one
digit; the capture is the maximal digit run. -/
def matchHeader (pre : Line) (line : Line) : Option Line :=
  if pre.isPrefixOf line then
    let ds := (line.drop pre.length).takeWhile Char.isDigit
    if ds.isEmpty then none else some ds
  else none

/-- `re.match(r'  \w+:$', line)` (source line 86), returning
`line.strip().rstrip(':')` (= the `\w+` part) on success.  Python's `$`
matches at the end of the string or just before a single trailing newline. -/
def matchEventName (line : Line) : Option Line :=
  match line with
  | ' ' :: ' ' :: rest =>
    let w := rest.takeWhile isWordChar
    let r := rest.drop w.length
    if w ≠ [] ∧ (r = colonPat ∨ r = toL ":\n") then some w else none
  | _ => none

/-- `re.match(r'^  [a-zA-Z]', line)` (source line 66). -/
def twoSpacesAlpha : Line → Bool
  | ' ' :: ' ' :: c :: _ => c.isAlpha
  | _ => false

/-- `re.search(r'fileID: (\d+)', line)` (source lines 41, 100): the leftmost
position where the whole pattern matches, capturing the maximal digit run. -/
def findFileID : Line → Option Line
  | [] => none
  | c :: rest =>
    if fidPat.isPrefixOf (c :: rest) then
      let ds := ((c :: rest).drop fidPat.length).takeWhile Char.isDigit
      if ds.isEmpty then findFileID rest else some ds
    else findFileID rest

/-- The Python dict `gameobjects`, as an association list in insertion order:
`d[k] = v` updates the existing entry in place or appends a fresh one. -/
def dinsert : List (Line × Line) → Line → Line → List (Line × Line)
  | [], k, v => [(k, v)]
  | p :: rest, k, v => if p.1 = k then (k, v) :: rest else p :: dinsert rest k v

/-- `f'Unknown-{id}'` (source lines 43, 102). -/
def unknownName (gid : Line) : Line := toL "Unknown-" ++ gid

/-- `gameobjects.get(gid, f'Unknown-{gid}')` (source lines 43, 102). -/
def resolveRef (gos : List (Line × Line)) (gid : Line) : Line :=
  (List.lookup gid gos).getD (unknownName gid)

/-- First pass (source lines 14-24): build the GameObject id → name mapping.
`cur` is `current_id`. -/
def pass1 : List Line → Option Line → List (Line × Line) → List (Line × Line)
  | [], _, gos => gos
  | line :: rest, cur, gos =>
    match matchHeader h1pre line with
    | some gid => pass1 rest (some gid) gos
    | none =>
      match cur with
      | some gid =>
        if containsSub mNamePat line then
          pass1 rest none (dinsert gos gid (strip (splitSub1 mNamePat line)))
        else pass1 rest (some gid) gos
      | none => pass1 rest none gos

/-- One step of the argument scan (body of source lines 117-129, for a single
`lines[arg_line]`): the if/elif chain that may overwrite `call_data['arg']`. -/
def argStep (line : Line) (arg : Option Line) : Option Line :=
  if containsSub intPat line then
    some (toL "int(" ++ strip (splitSub1 colonPat line) ++ toL ")")
  else if containsSub floatPat line ∧ strip (splitSub1 colonPat line) ≠ toL "0" then
    some (toL "float(" ++ strip (splitSub1 colonPat line) ++ toL ")")
  else if containsSub strPat line then
    let v := strip (splitSub1 colonPat line)
    if v ≠ [] then some ('"' :: v ++ toL "\"") else arg
  else if containsSub boolPat line then
    some (strip (splitSub1 colonPat line))
  else arg

/-- The argument scan (source lines 115-130): fold `argStep` over the window
`[idx, idx + count)`; `count` is `min(m + 10, len(lines)) - m` at the call. -/
def argScan (lines : List Line) : Nat → Nat → Option Line → Option Line
  | 0, _, arg => arg
  | c+1, idx, arg => argScan lines c (idx + 1) (argStep (lineAt lines idx) arg)

/-- The fields of `call_data` that the method lookahead (source lines
105-131) may fill in. -/
structure CallData where
  target_type : Option Line
  method : Option Line
  arg : Option Line
deriving DecidableEq, Repr

/-- Body of the method lookahead for one `lines[m]` (source lines 107-131):
the if/elif chain on the assembly-type, method-name and arguments markers. -/
def mStep (lines : List Line) (m : Nat) (f : CallData) : CallData :=
  let line := lineAt lines m
  if containsSub tatnPat line then
    { f with target_type := some (upToFirst commaPat (strip (splitSub1 tatnPat line))) }
  else if containsSub methodPat line then
    { f with method := some (strip (splitSub1 methodPat line)) }
  else if containsSub argsPat line then
    { f with arg := argScan lines (min (m + 10) lines.length - m) m f.arg }
  else f

/-- The method lookahead loop (source lines 105-131):
`m = k; while m < min(k + 10, len(lines)) and not lines[m].startswith('      -')`.
`count` is `min(k + 10, len(lines)) - m`, so reaching `0` is exactly
`m = min(k + 10, len(lines))`.  Returns the final `m` and the collected
fields. -/
def mScan (lines : List Line) : Nat → Nat → CallData → Nat × CallData
  | 0, m, f => (m, f)
  | c+1, m, f =>
    if callItemPre.isPrefixOf (lineAt lines m) then (m, f)
    else mScan lines c (m + 1) (mStep lines m f)

/-- Target extraction from the list-item line (source lines 99-102): the
`target_name` key is set only when the line contains the target marker and
the `fileID` search succeeds. -/
def extractTarget (gos : List (Line × Line)) (line : Line) : Option Line :=
  if containsSub targetPat line then (findFileID line).map (resolveRef gos)
  else none

/-- A `call_data` record as appended to `comp_data['events']`. -/
structure Call where
  event : Line
  target_name : Option Line
  target_type : Option Line
  method : Option Line
  arg : Option Line
deriving DecidableEq, Repr

/-- The persistent-calls loop (source lines 93-136):
`while k < len(lines) and lines[k].startswith('      -')`.  Each iteration
runs `mScan` from `m = k` and finishes with `k = m`; when `m = k` the source
loops forever (see the file header), which the embedding reports as `none`.
When the loop makes progress, each iteration increases `k` by at least one
while `k < len(lines)`, so `len(lines) - k + 1` units of fuel can never be
exhausted; the `0` case is unreachable from the call site in `eventsScan`. -/
def callsLoop (gos : List (Line × Line)) (lines : List Line) (ename : Line) :
    Nat → Nat → List Call → Option (Nat × List Call)
  | 0, _, _ => none
  | fuel+1, k, acc =>
    if k < lines.length ∧ callItemPre.isPrefixOf (lineAt lines k) then
      let line := lineAt lines k
      let tgt := extractTarget gos line
      let p := mScan lines (min (k + 10) lines.length - k) k ⟨none, none, none⟩
      let acc' :=
        if p.2.method.isSome then
          acc ++ [⟨ename, tgt, p.2.target_type, p.2.method, p.2.arg⟩]
        else acc
      if p.1 ≤ k then none else callsLoop gos lines ename fuel p.1 acc'
    else some (k, acc)

/-- The event scan of one component (source lines 76-138): `j` walks from the
block header at `i` to the end of input, stopping at the next `'---'` line
strictly after `i`; `count` is `len(lines) - j`.  On an event-name line whose
two successors carry the persistent-calls and calls-list markers, the
persistent-calls loop runs from `k = j + 3`; afterwards the scan resumes at
`j + 1` (the source never skips `j` past the calls). -/
def eventsScan (gos : List (Line × Line)) (lines : List Line) (i : Nat) :
    Nat → Nat → List Call → Option (List Call)
  | 0, _, acc => some acc
  | c+1, j, acc =>
    let line := lineAt lines j
    if i < j ∧ dashPre.isPrefixOf line then some acc
    else
      match matchEventName line with
      | some ename =>
        if j + 2 < lines.length ∧ containsSub pcPat (lineAt lines (j + 1)) ∧
            containsSub callsPat (lineAt lines (j + 2)) then
          match callsLoop gos lines ename (lines.length - (j + 3) + 1) (j + 3) acc with
          | none => none
          | some r => eventsScan gos lines i c (j + 1) r.2
        else eventsScan gos lines i c (j + 1) acc
      | none => eventsScan gos lines i c (j + 1) acc

/-- The owner-reference scan (source lines 38-45): `j` from `i` while
`j < min(i + 20, len(lines))`; on the first line containing the
`m_GameObject` marker, resolve its `fileID` (if the search succeeds) and
stop.  `count` is `min(i + 20, len(lines)) - j`. -/
def findOwnerAux (gos : List (Line × Line)) (lines : List Line) :
    Nat → Nat → Option Line
  | 0, _ => none
  | c+1, j =>
    let line := lineAt lines j
    if containsSub goPat line then (findFileID line).map (resolveRef gos)
    else findOwnerAux gos lines c (j + 1)

/-- The type-name heuristic (source lines 61-71): `j` from `i` while
`j < min(i + 50, len(lines))`; the first line starting with two spaces and a
letter, containing no colon, whose stripped form does not start with `m_`,
is stripped and (being nonempty and not starting with `-`) taken as the type
name.  `count` is `min(i + 50, len(lines)) - j`.  (The `m_Script:`/`guid:`
scan of source lines 47-59 has no effect and is not embedded.) -/
def findTypeAux (lines : List Line) : Nat → Nat → Option Line
  | 0, _ => none
  | c+1, j =>
    let line := lineAt lines j
    if twoSpacesAlpha line ∧ ¬ containsColon line ∧ ¬ mPre.isPrefixOf (strip line) then
      let pt := strip line
      if pt ≠ [] ∧ ¬ [ '-' ].isPrefixOf pt then some pt
      else findTypeAux lines c (j + 1)
    else findTypeAux lines c (j + 1)
where
  /-- `':' in line` (source line 66). -/
  containsColon (line : Line) : Bool := line.contains ':'

/-- `comp_data` as assembled for one behaviour block. -/
structure Comp where
  id : Line
  gameobject : Option Line
  type : Option Line
  events : List Call
deriving DecidableEq, Repr

/-- Extraction of one behaviour block at header index `i` (source lines
34-138): owner scan, type heuristic, then the event scan.  `none` propagates
the divergence of the persistent-calls loop. -/
def extractComp (gos : List (Line × Line)) (lines : List Line) (i : Nat)
    (cid : Line) : Option Comp :=
  let gameobject := findOwnerAux gos lines (min (i + 20) lines.length - i) i
  let ctype := findTypeAux lines (min (i + 50) lines.length - i) i
  match eventsScan gos lines i (lines.length - i) i [] with
  | none => none
  | some evs => some ⟨cid, gameobject, ctype, evs⟩

/-- The second pass (source lines 27-143): `i` walks over all lines; each
`--- !u!114` header opens a component, which is appended to the output only
when its `events` list is nonempty (source lines 140-141).  `count` is
`len(lines) - i`. -/
def scanComps (gos : List (Line × Line)) (lines : List Line) :
    Nat → Nat → List Comp → Option (List Comp)
  | 0, _, acc => some acc
  | c+1, i, acc =>
    match matchHeader h114pre (lineAt lines i) with
    | some cid =>
      match extractComp gos lines i cid with
      | none => none
      | some comp =>
        scanComps gos lines c (i + 1) (if comp.events ≠ [] then acc ++ [comp] else acc)
    | none => scanComps gos lines c (i + 1) acc

/-- `parse_scene` (source lines 8-145) on the line list of the file.
`some comps` is the returned `components`; `none` means the source call does
not terminate. -/
def parse_scene (lines : List Line) : Option (List Comp) :=
  scanComps (pass1 lines none []) lines lines.length 0 []

/-! ### Concrete inputs used by the claims -/

/-- A minimal behaviour block whose event has one persistent-call list item. -/
def exC1 : List Line :=
  [toL "--- !u!114 &1",
   toL "  e:",
   toL "    m_PersistentCalls:",
   toL "      m_Calls:",
   toL "      - x"]

/-- A well-formed behaviour block: event `onOpen`, persistent-calls container,
calls list, one call with a target and a method name. -/
def exC2 : List Line :=
  [toL "--- !u!114 &200",
   toL "MonoBehaviour:",
   toL "  m_GameObject: {fileID: 100}",
   toL "  onOpen:",
   toL "    m_PersistentCalls:",
   toL "      m_Calls:",
   toL "      - m_Target: {fileID: 100}",
   toL "        m_MethodName: Open"]

/-- A call whose only argument-value field is `m_FloatArgument: 2.5`. -/
def exC3 : List Line :=
  [toL "--- !u!114 &1",
   toL "  e:",
   toL "    m_PersistentCalls:",
   toL "      m_Calls:",
   toL "      - m_Target: {fileID: 5}",
   toL "        m_MethodName: Go",
   toL "        m_Arguments:",
   toL "          m_FloatArgument: 2.5"]

/-- A call whose only argument-value field is `m_IntArgument: 0`. -/
def exC4 : List Line :=
  [toL "--- !u!114 &1",
   toL "  e:",
   toL "    m_PersistentCalls:",
   toL "      m_Calls:",
   toL "      - m_Target: {fileID: 7}",
   toL "        m_MethodName: Add",
   toL "        m_Arguments:",
   toL "          m_IntArgument: 0"]

/-- A call record that carries no `m_MethodName:` line at all. -/
def exC8 : List Line :=
  [toL "--- !u!114 &1",
   toL "  e:",
   toL "    m_PersistentCalls:",
   toL "      m_Calls:",
   toL "      - m_Target: {fileID: 5}"]

/-- A behaviour block whose owner reference `999` is defined nowhere. -/
def exC5 : List Line :=
  [toL "--- !u!114 &200",
   toL "  m_GameObject: {fileID: 999}"]

/-- A call list-item line whose target reference is `999`. -/
def exC5target : Line := toL "      - m_Target: {fileID: 999}"

/-! ### The input family for the first-pass claim

An object entry is an id, a list of filler lines between the header and the
name line, and a name: it produces a `--- !u!1 &<id>` header, the fillers,
and a `m_Name: <name>` line. -/

/-- The lines of one object entry. -/
def mkObjEntry (e : Line × List Line × Line) : List Line :=
  (h1pre ++ e.1) :: (e.2.1 ++ [mNamePat ++ (' ' :: e.2.2)])

/-- The lines of a list of object entries. -/
def mkObjLines : List (Line × List Line × Line) → List Line
  | [] => []
  | e :: es => mkObjEntry e ++ mkObjLines es

/-- A well-formed object id: nonempty, all digits. -/
def goodId (gid : Line) : Bool := !gid.isEmpty && gid.all Char.isDigit

/-- A well-formed filler line: not an object header, no name field. -/
def goodFill (l : Line) : Bool := (matchHeader h1pre l).isNone && !containsSub mNamePat l

/-- A well-formed object name: already stripped, no embedded name field. -/
def goodName (nm : Line) : Bool := (strip nm == nm) && !containsSub mNamePat nm

/-- Well-formedness of a list of object entries. -/
def entriesOK (es : List (Line × List Line × Line)) : Bool :=
  es.all fun e => goodId e.1 && e.2.1.all goodFill && goodName e.2.2

/-- Folding the dict insertions of a list of entries (what the first pass
computes on `mkObjLines`). -/
def foldIns (gos : List (Line × Line)) (es : List (Line × List Line × Line)) :
    List (Line × Line) :=
  es.foldl (fun g e => dinsert g e.1 e.2.2) gos

/-- The name of the last entry with a given id (last-write-wins). -/
def lastVal (es : List (Line × List Line × Line)) (gid : Line) : Option Line :=
  es.foldl (fun a e => if e.1 = gid then some e.2.2 else a) none

/-- Concrete entries used by the C7 witness. -/
def esW7 : List (Line × List Line × Line) :=
  [(toL "100", [], toL "Door"), (toL "200", [toL "  m_TagString: Untagged"], toL "Button")]

/-- Object `100` named `Door`, then a behaviour block owned by `100`. -/
def exC9a : List Line :=
  [toL "--- !u!1 &100",
   toL "  m_Name: Door",
   toL "--- !u!114 &200",
   toL "  m_GameObject: {fileID: 100}"]

/-- Same as `exC9a` except the object is named `Cat`: the two inputs agree on
every line from the behaviour-block header (index 2) onward. -/
def exC9b : List Line :=
  [toL "--- !u!1 &100",
   toL "  m_Name: Cat",
   toL "--- !u!114 &200",
   toL "  m_GameObject: {fileID: 100}"]

/-- A behaviour block whose region ends at the next `---` marker on the very
next line; the type-name heuristic window reaches past it. -/
def exC9c : List Line :=
  [toL "--- !u!114 &300",
   toL "--- !u!1 &1",
   toL "  Foo"]

/-- Same as `exC9c` up to (and including) the `---` boundary, differing only
beyond it. -/
def exC9d : List Line :=
  [toL "--- !u!114 &300",
   toL "--- !u!1 &1",
   toL "  Bar"]

end ParseEvents

namespace ParseEvents

/-! ### Helper lemmas -/

/-- Invariant of the second pass: only components with nonempty `events` are
ever appended (source lines 140-141). -/
theorem scanComps_events_ne_nil (gos : List (Line × Line)) (lines : List Line) :
    ∀ (c i : Nat) (acc comps : List Comp),
      (∀ comp ∈ acc, comp.events ≠ []) →
      scanComps gos lines c i acc = some comps →
      ∀ comp ∈ comps, comp.events ≠ [] := by
  intro c
  induction c with
  | zero =>
    intro i acc comps hacc heq
    obtain rfl : acc = comps := by simpa [scanComps] using heq
    exact hacc
  | succ c ih =>
    intro i acc comps hacc heq
    rw [scanComps] at heq
    split at heq
    · split at heq
      · exact absurd heq (by simp)
      · rename_i comp hcomp
        refine ih (i + 1) _ comps ?_ heq
        intro x hx
        by_cases hne : comp.events ≠ []
        · rw [if_pos hne] at hx
          rcases List.mem_append.mp hx with h | h
          · exact hacc x h
          · rw [List.mem_singleton] at h
            subst h
            exact hne
        · rw [if_neg hne] at hx
          exact hacc x hx
    · exact ih (i + 1) acc comps hacc heq

/-! ### String-level helper lemmas -/

theorem nil_isPrefixOf (s : Line) : List.isPrefixOf ([] : Line) s = true := by
  cases s with
  | nil => rfl
  | cons c s => rfl

theorem isPrefixOf_append_self (p s : Line) : p.isPrefixOf (p ++ s) = true := by
  induction p with
  | nil => exact nil_isPrefixOf s
  | cons c p ih => simp [List.isPrefixOf, ih]

theorem isPrefixOf_head_ne {a c : Char} (h : (a == c) = false) (p s : Line) :
    (a :: p).isPrefixOf (c :: s) = false := by
  simp [List.isPrefixOf, h]

theorem isPrefixOf_append_ext (p : Line) :
    ∀ t s : Line, p.isPrefixOf t = true → p.isPrefixOf (t ++ s) = true := by
  induction p with
  | nil => intro t s _; exact nil_isPrefixOf (t ++ s)
  | cons a p ih =>
    intro t s h
    cases t with
    | nil => simp [List.isPrefixOf] at h
    | cons b t =>
      simp only [List.isPrefixOf, Bool.and_eq_true] at h
      simp [List.isPrefixOf, h.1, ih t s h.2]

theorem containsSub_cons (pat : Line) (c : Char) (rest : Line) :
    containsSub pat (c :: rest)
      = (pat.isPrefixOf (c :: rest) || containsSub pat rest) := rfl

theorem containsSub_of_isPrefixOf (pat s : Line) (h : pat.isPrefixOf s = true) :
    containsSub pat s = true := by
  cases s with
  | nil => simpa [containsSub] using h
  | cons c rest => rw [containsSub_cons, h, Bool.true_or]

theorem containsSub_append_left (pat : Line) :
    ∀ pre s : Line, containsSub pat pre = true → containsSub pat (pre ++ s) = true := by
  intro pre
  induction pre with
  | nil =>
    intro s h
    simp only [containsSub] at h
    exact containsSub_of_isPrefixOf pat s (isPrefixOf_append_ext pat [] s h)
  | cons c pre ih =>
    intro s h
    rw [containsSub_cons, Bool.or_eq_true] at h
    rw [List.cons_append, containsSub_cons]
    rcases h with h | h
    · have h' := isPrefixOf_append_ext pat (c :: pre) s h
      rw [List.cons_append] at h'
      rw [h', Bool.true_or]
    · rw [ih s h, Bool.or_true]

theorem upToFirst_of_not_contains (pat : Line) :
    ∀ s : Line, containsSub pat s = false → upToFirst pat s = s := by
  intro s
  induction s with
  | nil => intro _; rfl
  | cons c rest ih =>
    intro h
    simp only [containsSub, Bool.or_eq_false_iff] at h
    simp [upToFirst, h.1, ih h.2]

theorem afterFirst_here (pat s : Line) (h : pat.isPrefixOf s = true) :
    afterFirst pat s = some (s.drop pat.length) := by
  cases s with
  | nil => simp [afterFirst, h]
  | cons c rest => simp [afterFirst, h]

theorem takeWhile_of_all {p : Char → Bool} (l : Line) (h : ∀ a ∈ l, p a = true) :
    l.takeWhile p = l := List.takeWhile_eq_self_iff.mpr h

theorem matchHeader_self (pre gid : Line) (hne : gid ≠ [])
    (hdig : gid.all Char.isDigit = true) :
    matchHeader pre (pre ++ gid) = some gid := by
  have h1 : (pre ++ gid).drop pre.length = gid := List.drop_left pre gid
  have h2 : gid.takeWhile Char.isDigit = gid :=
    takeWhile_of_all gid (by simpa [List.all_eq_true] using hdig)
  simp [matchHeader, isPrefixOf_append_self, h1, h2, List.isEmpty_eq_false, hne]

theorem h1pre_cons : h1pre = '-' :: toL "-- !u!1 &" := rfl

theorem mNamePat_cons : mNamePat = 'm' :: toL "_Name:" := rfl

theorem matchHeader_nameLine (x : Line) :
    matchHeader h1pre (mNamePat ++ x) = none := by
  have h : h1pre.isPrefixOf (mNamePat ++ x) = false := by
    rw [h1pre_cons, mNamePat_cons, List.cons_append]
    exact isPrefixOf_head_ne (by rfl) _ _
  simp [matchHeader, h]

theorem strip_cons_space (s : Line) : strip (' ' :: s) = strip s := by
  have h : (' ' :: s).dropWhile Char.isWhitespace = s.dropWhile Char.isWhitespace := by
    rw [List.dropWhile_cons, if_pos (by rfl)]
  simp [strip, h]

theorem nameLine_value (nm : Line) (h1 : strip nm = nm)
    (h2 : containsSub mNamePat nm = false) :
    strip (splitSub1 mNamePat (mNamePat ++ (' ' :: nm))) = nm := by
  have ha : afterFirst mNamePat (mNamePat ++ (' ' :: nm)) = some (' ' :: nm) := by
    rw [afterFirst_here _ _ (isPrefixOf_append_self _ _), List.drop_left]
  have hc : containsSub mNamePat (' ' :: nm) = false := by
    have hp : mNamePat.isPrefixOf (' ' :: nm) = false := by
      rw [mNamePat_cons]
      exact isPrefixOf_head_ne (by rfl) _ _
    simp [containsSub, hp, h2]
  rw [splitSub1, ha, Option.getD_some, upToFirst_of_not_contains _ _ hc,
    strip_cons_space, h1]

/-! ### First-pass helper lemmas -/

theorem pass1_cons_header {line gid : Line} (h : matchHeader h1pre line = some gid)
    (rest : List Line) (cur : Option Line) (gos : List (Line × Line)) :
    pass1 (line :: rest) cur gos = pass1 rest (some gid) gos := by
  simp only [pass1, h]

theorem pass1_cons_name {line gid : Line} (h1 : matchHeader h1pre line = none)
    (h2 : containsSub mNamePat line = true) (rest : List Line)
    (gos : List (Line × Line)) :
    pass1 (line :: rest) (some gid) gos
      = pass1 rest none (dinsert gos gid (strip (splitSub1 mNamePat line))) := by
  simp only [pass1, h1, h2, if_true]

theorem pass1_cons_skip {line gid : Line} (h1 : matchHeader h1pre line = none)
    (h2 : containsSub mNamePat line = false) (rest : List Line)
    (gos : List (Line × Line)) :
    pass1 (line :: rest) (some gid) gos = pass1 rest (some gid) gos := by
  simp only [pass1, h1, h2, Bool.false_eq_true, if_false]

theorem pass1_skip_fill (rest : List Line) (gid : Line) (gos : List (Line × Line)) :
    ∀ fill : List Line,
      (∀ l ∈ fill, (matchHeader h1pre l).isNone ∧ containsSub mNamePat l = false) →
      pass1 (fill ++ rest) (some gid) gos = pass1 rest (some gid) gos := by
  intro fill
  induction fill with
  | nil => intro _; rfl
  | cons l fill ih =>
    intro h
    obtain ⟨hm, hn⟩ := h l (List.mem_cons_self l fill)
    have hm' : matchHeader h1pre l = none := Option.isNone_iff_eq_none.mp hm
    rw [List.cons_append, pass1_cons_skip hm' hn]
    exact ih fun l hl => h l (List.mem_cons_of_mem _ hl)

theorem pass1_entry (gid nm : Line) (fill rest : List Line) (gos : List (Line × Line))
    (hid : gid ≠ []) (hdig : gid.all Char.isDigit = true)
    (hnm1 : strip nm = nm) (hnm2 : containsSub mNamePat nm = false)
    (hfill : ∀ l ∈ fill, (matchHeader h1pre l).isNone ∧ containsSub mNamePat l = false) :
    pass1 (mkObjEntry (gid, fill, nm) ++ rest) none gos
      = pass1 rest none (dinsert gos gid nm) := by
  have hh : matchHeader h1pre (h1pre ++ gid) = some gid := matchHeader_self _ _ hid hdig
  have hstep : mkObjEntry (gid, fill, nm) ++ rest
      = (h1pre ++ gid) :: (fill ++ ((mNamePat ++ (' ' :: nm)) :: rest)) := by
    simp [mkObjEntry, List.append_assoc]
  rw [hstep, pass1_cons_header hh, pass1_skip_fill _ _ _ fill hfill,
    pass1_cons_name (matchHeader_nameLine _)
      (containsSub_of_isPrefixOf _ _ (isPrefixOf_append_self mNamePat (' ' :: nm))),
    nameLine_value nm hnm1 hnm2]

theorem pass1_mkObjLines (es : List (Line × List Line × Line))
    (hes : entriesOK es = true) :
    ∀ gos : List (Line × Line), pass1 (mkObjLines es) none gos = foldIns gos es := by
  induction es with
  | nil => intro gos; rfl
  | cons e es ih =>
    intro gos
    simp only [entriesOK, List.all_cons, Bool.and_eq_true] at hes
    obtain ⟨⟨⟨hgood, hfill⟩, hname⟩, hrest⟩ := hes
    obtain ⟨gid, fill, nm⟩ := e
    simp only [goodId, Bool.and_eq_true, Bool.not_eq_true', List.isEmpty_eq_false] at hgood
    simp only [goodName, Bool.and_eq_true, Bool.not_eq_true', beq_iff_eq] at hname
    have hfill' : ∀ l ∈ fill, (matchHeader h1pre l).isNone ∧ containsSub mNamePat l = false := by
      intro l hl
      have := (List.all_eq_true.mp hfill) l hl
      simp only [goodFill, Bool.and_eq_true, Bool.not_eq_true'] at this
      exact this
    rw [mkObjLines, pass1_entry gid nm fill _ gos hgood.1 hgood.2 hname.1 hname.2 hfill']
    exact ih (by simpa [entriesOK] using hrest) (dinsert gos gid nm)

/-! ### Dict (association list) helper lemmas -/

theorem lookup_cons (a k b : Line) (es : List (Line × Line)) :
    List.lookup a ((k, b) :: es) = if a = k then some b else List.lookup a es := by
  by_cases h : a = k
  · simp [List.lookup, h]
  · have hb : (a == k) = false := beq_eq_false_iff_ne.mpr h
    simp [List.lookup, hb, h]

theorem lookup_dinsert (gid k v : Line) :
    ∀ g : List (Line × Line),
      List.lookup gid (dinsert g k v) = if gid = k then some v else List.lookup gid g := by
  intro g
  induction g with
  | nil => simpa using lookup_cons gid k v []
  | cons p g ih =>
    obtain ⟨pk, pv⟩ := p
    by_cases hpk : pk = k
    · subst hpk
      rw [dinsert, if_pos rfl, lookup_cons, lookup_cons]
      by_cases hg : gid = pk
      · simp [hg]
      · simp [hg]
    · rw [dinsert, if_neg hpk, lookup_cons, ih, lookup_cons]
      by_cases hg : gid = pk
      · subst hg
        have hk : ¬ gid = k := fun h => hpk h
        simp [hk]
      · simp [hg]

theorem or_ite_none (P : Prop) [Decidable P] (v : Line) (z : Option Line) :
    (if P then some v else none).or z = if P then some v else z := by
  split_ifs <;> rfl

theorem lastVal_init (gid : Line) (es : List (Line × List Line × Line)) :
    ∀ a : Option Line,
      es.foldl (fun a e => if e.1 = gid then some e.2.2 else a) a
        = (lastVal es gid).or a := by
  induction es with
  | nil => intro a; rfl
  | cons e es ih =>
    intro a
    simp only [lastVal, List.foldl_cons] at *
    rw [ih, ih (if e.1 = gid then some e.2.2 else none), Option.or_assoc, or_ite_none]

theorem foldIns_lookup (gid : Line) (es : List (Line × List Line × Line)) :
    ∀ gos : List (Line × Line),
      List.lookup gid (foldIns gos es) = (lastVal es gid).or (List.lookup gid gos) := by
  induction es with
  | nil => intro gos; rfl
  | cons e es ih =>
    intro gos
    have h1 : foldIns gos (e :: es) = foldIns (dinsert gos e.1 e.2.2) es := rfl
    rw [h1, ih, lookup_dinsert]
    have h2 : lastVal (e :: es) gid
        = (lastVal es gid).or (if e.1 = gid then some e.2.2 else none) := by
      simp only [lastVal, List.foldl_cons]
      exact lastVal_init gid es _
    rw [h2, Option.or_assoc, or_ite_none]
    have h3 : (if gid = e.1 then some e.2.2 else List.lookup gid gos)
        = (if e.1 = gid then some e.2.2 else List.lookup gid gos) := by
      simp [eq_comm]
    rw [h3]

theorem map_fst_dinsert_fresh (k v : Line) :
    ∀ g : List (Line × Line), List.lookup k g = none →
      (dinsert g k v).map Prod.fst = g.map Prod.fst ++ [k] := by
  intro g
  induction g with
  | nil => intro _; rfl
  | cons p g ih =>
    obtain ⟨pk, pv⟩ := p
    intro h
    rw [lookup_cons] at h
    by_cases hg : k = pk
    · rw [if_pos hg] at h
      exact absurd h (by simp)
    · rw [if_neg hg] at h
      have hpk : ¬ pk = k := fun he => hg he.symm
      rw [dinsert, if_neg hpk]
      simp [ih h]

theorem foldIns_map_fst :
    ∀ (es : List (Line × List Line × Line)) (gos : List (Line × Line)),
      (∀ e ∈ es, List.lookup e.1 gos = none) →
      (es.map (fun e => e.1)).Nodup →
      (foldIns gos es).map Prod.fst = gos.map Prod.fst ++ es.map (fun e => e.1) := by
  intro es
  induction es with
  | nil => intro gos _ _; simp [foldIns]
  | cons e es ih =>
    intro gos hfresh hnd
    simp only [List.map_cons, List.nodup_cons] at hnd
    have h1 : foldIns gos (e :: es) = foldIns (dinsert gos e.1 e.2.2) es := rfl
    have h2 : ∀ e' ∈ es, List.lookup e'.1 (dinsert gos e.1 e.2.2) = none := by
      intro e' he'
      rw [lookup_dinsert]
      have hne : ¬ e'.1 = e.1 := by
        intro hcontra
        exact hnd.1 (hcontra ▸ List.mem_map_of_mem (fun e => e.1) he')
      rw [if_neg hne]
      exact hfresh e' (List.mem_cons_of_mem _ he')
    rw [h1, ih _ h2 hnd.2,
      map_fst_dinsert_fresh _ _ gos (hfresh e (List.mem_cons_self e es))]
    simp

end ParseEvents

namespace ParseEvents

/-! ### Claim theorems (continued) -/

/-- C5 (confirmed): a reference whose `fileID` has no entry in the
identifier mapping resolves to the placeholder `Unknown-<id>` and never
fails: at the owner site (source lines 41-43) the block still yields its
record, with `Unknown-999` recorded as the owner; at the target site
(source lines 100-102) the extracted target name is `Unknown-999`. -/
theorem c5_dangling_ref_resolves (gos : List (Line × Line))
    (h : List.lookup (toL "999") gos = none) :
    extractComp gos exC5 0 (toL "200")
      = some ⟨toL "200", some (unknownName (toL "999")), none, []⟩
    ∧ extractTarget gos exC5target = some (unknownName (toL "999")) := by
  have hres : resolveRef gos (toL "999") = unknownName (toL "999") := by
    simp [resolveRef, h]
  constructor
  · have base : extractComp gos exC5 0 (toL "200")
        = some ⟨toL "200", some (resolveRef gos (toL "999")), none, []⟩ := rfl
    rw [base, hres]
  · have base : extractTarget gos exC5target
        = some (resolveRef gos (toL "999")) := rfl
    rw [base, hres]

/-- Witness for C5 at the empty mapping. -/
theorem c5_dangling_ref_resolves_witness :
    List.lookup (toL "999") ([] : List (Line × Line)) = none
    ∧ (extractComp [] exC5 0 (toL "200")
        = some ⟨toL "200", some (unknownName (toL "999")), none, []⟩
      ∧ extractTarget [] exC5target = some (unknownName (toL "999"))) :=
  ⟨rfl, c5_dangling_ref_resolves [] rfl⟩

/-- C6 (confirmed): every component in a (terminating) `parse_scene` result
has a nonempty `events` sequence — a block for which extraction recovers no
qualifying call is absent from the output. -/
theorem c6_components_have_events (lines : List Line) (comps : List Comp)
    (h : parse_scene lines = some comps) :
    ∀ comp ∈ comps, comp.events ≠ [] :=
  scanComps_events_ne_nil (pass1 lines none []) lines lines.length 0 [] comps
    (fun comp hc => absurd hc (List.not_mem_nil comp)) h

/-- Witness for C6 on a behaviour block with no events. -/
theorem c6_components_have_events_witness :
    parse_scene [toL "--- !u!114 &3"] = some []
    ∧ ∀ comp ∈ ([] : List Comp), comp.events ≠ [] :=
  ⟨rfl, c6_components_have_events [toL "--- !u!114 &3"] [] rfl⟩

/-- C7 (confirmed): on an input of object headers each followed (possibly
after filler lines) by a name field, the first pass builds the mapping whose
lookups are the last-written name per id; when the ids are distinct the
mapping has exactly the `es.length` entries keyed by those ids, in order. -/
theorem c7_identifier_mapping (es : List (Line × List Line × Line))
    (hes : entriesOK es = true) :
    (∀ gid : Line,
        List.lookup gid (pass1 (mkObjLines es) none []) = lastVal es gid)
    ∧ ((es.map (fun e => e.1)).Nodup →
        (pass1 (mkObjLines es) none []).map Prod.fst = es.map (fun e => e.1)
        ∧ (pass1 (mkObjLines es) none []).length = es.length) := by
  have hp := pass1_mkObjLines es hes []
  constructor
  · intro gid
    rw [hp, foldIns_lookup]
    simp [List.lookup]
  · intro hnd
    have hk := foldIns_map_fst es []
      (fun e _ => by simp [List.lookup]) hnd
    constructor
    · rw [hp]
      simpa using hk
    · rw [hp]
      have : ((foldIns [] es).map Prod.fst).length = (es.map (fun e => e.1)).length := by
        rw [hk]
        simp
      simpa using this

/-- Witness for C7 at two concrete entries. -/
theorem c7_identifier_mapping_witness :
    entriesOK esW7 = true
    ∧ List.lookup (toL "100") (pass1 (mkObjLines esW7) none [])
        = lastVal esW7 (toL "100") :=
  ⟨by decide, (c7_identifier_mapping esW7 (by decide)).1 (toL "100")⟩

end ParseEvents

namespace ParseEvents

/-! ### Claim theorems -/

/-- C1 (code_bug): the claim says `parse_scene` terminates on every finite
input: the persistent-calls cursor `k` always reaches end-of-input or a
boundary.  It does not: on `exC1` (one event with one call list item) the
lookahead starts at `m = k`, is immediately stopped by the list-item guard,
and `k = m` never advances, so the source loops forever (modelled by
`none`).  Removing the list item (the first four lines) terminates normally,
confirming the loop as the divergence point. -/
theorem c1_calls_loop_diverges :
    parse_scene exC1 = none ∧ parse_scene (exC1.take 4) = some [] := by
  exact ⟨rfl, rfl⟩

/-- C2 (code_bug): the claim says a behaviour block with a complete
event→persistent-calls structure and one call carrying a method name yields
exactly one retained `PersistentCall`.  On exactly such an input (`exC2`)
the source instead never returns (the calls loop does not advance), so no
component is ever produced. -/
theorem c2_wellformed_call_diverges : parse_scene exC2 = none := by
  exact rfl

/-- C3 (code_bug): the claim describes the float-argument policy of the
retained `PersistentCall`.  The argument-selection chain (source lines
117-129, embedded as `argStep`) does implement that policy — a
`m_FloatArgument: 0` line leaves the argument unset and a
`m_FloatArgument: 2.5` line sets `float(2.5)` — but the code that would
run it is unreachable: on `exC3` (a call whose only argument field is
`float = 2.5`) `parse_scene` never returns, so no call is retained. -/
theorem c3_float_policy_unreachable :
    parse_scene exC3 = none
    ∧ (∀ a : Option Line, argStep (toL "          m_FloatArgument: 0") a = a)
    ∧ (∀ a : Option Line,
        argStep (toL "          m_FloatArgument: 2.5") a = some (toL "float(2.5)")) := by
  exact ⟨rfl, fun a => rfl, fun a => rfl⟩

/-- C4 (code_bug): the claim says non-float argument fields are accepted at
their default values, e.g. `int = 0` yields argument `int(0)`.  The
selection chain (`argStep`) does accept `m_IntArgument: 0` (and a bool at
its default), but on `exC4` (a call whose only argument field is `int = 0`)
`parse_scene` never returns, so no call with that argument is retained. -/
theorem c4_int_zero_unreachable :
    parse_scene exC4 = none
    ∧ (∀ a : Option Line, argStep (toL "          m_IntArgument: 0") a = some (toL "int(0)"))
    ∧ (∀ a : Option Line, argStep (toL "          m_BoolArgument: 0") a = some (toL "0")) := by
  exact ⟨rfl, fun a => rfl, fun a => rfl⟩

/-- C8 (code_bug): the claim says a call without a recovered method name is
dropped and processing continues unchanged.  The method lookahead on `exC8`
indeed recovers no method (second conjunct), so the call would not be
appended — but processing does not continue: the calls loop never advances
past the method-less call and the source loops forever (first conjunct). -/
theorem c8_methodless_call_diverges :
    parse_scene exC8 = none
    ∧ (mScan exC8 (min (4 + 10) exC8.length - 4) 4 ⟨none, none, none⟩).2.method = none := by
  exact ⟨rfl, rfl⟩

/-- C10 (confirmed): in the argument-selection chain (source lines 113-130),
the recorded argument is the one of the last accepted line in file order,
not of a fixed priority order: a `m_BoolArgument` line overwrites whatever
was selected before (first conjunct, for every prior state), and swapping an
int line and a bool line swaps which argument is recorded (second and third
conjuncts). -/
theorem c10_last_accepted_argument_wins :
    (∀ a : Option Line, argStep (toL "          m_BoolArgument: 1") a = some (toL "1"))
    ∧ argScan [toL "          m_IntArgument: 5", toL "          m_BoolArgument: 1"] 2 0 none
        = some (toL "1")
    ∧ argScan [toL "          m_BoolArgument: 1", toL "          m_IntArgument: 5"] 2 0 none
        = some (toL "int(5)") := by
  exact ⟨fun a => rfl, rfl, rfl⟩

end ParseEvents

namespace ParseEvents

/-! ### Index-shift lemmas: every scan of a block reads only the suffix of
the lines from its start index (together with the identifier mapping). -/

theorem lineAt_drop (lines : List Line) (i : Nat) :
    ∀ t : Nat, lineAt (lines.drop i) t = lineAt lines (i + t) := by
  induction i generalizing lines with
  | zero => intro t; simp [lineAt]
  | succ i ih =>
    intro t
    cases lines with
    | nil => simp [lineAt, List.getD]
    | cons l ls =>
      have h : i + 1 + t = (i + t) + 1 := by omega
      rw [List.drop_succ_cons, ih ls t, h]
      simp [lineAt, List.getD]

theorem argScan_drop (lines : List Line) (i : Nat) :
    ∀ (c t : Nat) (a : Option Line),
      argScan (lines.drop i) c t a = argScan lines c (i + t) a := by
  intro c
  induction c with
  | zero => intro t a; rfl
  | succ c ih =>
    intro t a
    have hi : i + (t + 1) = i + t + 1 := by omega
    rw [argScan, argScan, lineAt_drop, ih (t + 1), hi]

theorem mStep_drop (lines : List Line) (i t : Nat) (f : CallData) :
    mStep (lines.drop i) t f = mStep lines (i + t) f := by
  have hlen : (lines.drop i).length = lines.length - i := List.length_drop i lines
  have hmin : min (t + 10) (lines.length - i) - t
      = min (i + t + 10) lines.length - (i + t) := by omega
  simp only [mStep, lineAt_drop, hlen, hmin, argScan_drop]

theorem mScan_ge (lines : List Line) :
    ∀ (c m : Nat) (f : CallData), m ≤ (mScan lines c m f).1 := by
  intro c
  induction c with
  | zero => intro m f; exact Nat.le_refl m
  | succ c ih =>
    intro m f
    rw [mScan]
    split
    · exact Nat.le_refl m
    · exact Nat.le_trans (Nat.le_succ m) (ih (m + 1) _)

theorem mScan_drop (lines : List Line) (i : Nat) :
    ∀ (c t : Nat) (f : CallData),
      mScan (lines.drop i) c t f
        = ((mScan lines c (i + t) f).1 - i, (mScan lines c (i + t) f).2) := by
  intro c
  induction c with
  | zero =>
    intro t f
    simp [mScan, Nat.add_sub_cancel_left]
  | succ c ih =>
    intro t f
    rw [mScan, mScan, lineAt_drop]
    by_cases h : callItemPre.isPrefixOf (lineAt lines (i + t)) = true
    · rw [if_pos h, if_pos h]
      simp [Nat.add_sub_cancel_left]
    · have hi : i + (t + 1) = i + t + 1 := by omega
      rw [if_neg h, if_neg h, mStep_drop, ih (t + 1), hi]

end ParseEvents


namespace ParseEvents

theorem callsLoop_drop (gos : List (Line × Line)) (lines : List Line) (e : Line)
    (i : Nat) :
    ∀ (fuel t : Nat) (acc : List Call),
      callsLoop gos (lines.drop i) e fuel t acc
        = (callsLoop gos lines e fuel (i + t) acc).map (fun p => (p.1 - i, p.2)) := by
  intro fuel
  induction fuel with
  | zero => intro t acc; rfl
  | succ fuel ih =>
    intro t acc
    have hlen : (lines.drop i).length = lines.length - i := List.length_drop i lines
    have hmin : min (t + 10) (lines.length - i) - t
        = min (i + t + 10) lines.length - (i + t) := by omega
    simp only [callsLoop, hlen, lineAt_drop, hmin, mScan_drop]
    set q := mScan lines (min (i + t + 10) lines.length - (i + t)) (i + t)
        ⟨none, none, none⟩ with hqdef
    have hge : i + t ≤ q.1 := by
      rw [hqdef]
      exact mScan_ge lines _ (i + t) _
    by_cases h1 : i + t < lines.length
        ∧ callItemPre.isPrefixOf (lineAt lines (i + t)) = true
    · obtain ⟨h1a, h1b⟩ := h1
      rw [if_pos (⟨by omega, h1b⟩ : t < lines.length - i
            ∧ callItemPre.isPrefixOf (lineAt lines (i + t)) = true),
          if_pos (⟨h1a, h1b⟩ : i + t < lines.length
            ∧ callItemPre.isPrefixOf (lineAt lines (i + t)) = true)]
      by_cases h2 : q.1 ≤ i + t
      · rw [if_pos (by omega : q.1 - i ≤ t), if_pos h2]
        rfl
      · rw [if_neg (by omega : ¬ q.1 - i ≤ t), if_neg h2, ih (q.1 - i)]
        have hq2 : i + (q.1 - i) = q.1 := by omega
        rw [hq2]
    · rw [if_neg (fun hc => h1 ⟨by have := hc.1; omega, hc.2⟩), if_neg h1]
      simp [Nat.add_sub_cancel_left]

end ParseEvents

namespace ParseEvents

theorem eventsScan_drop (gos : List (Line × Line)) (lines : List Line) (i : Nat) :
    ∀ (c t : Nat) (acc : List Call),
      eventsScan gos (lines.drop i) 0 c t acc
        = eventsScan gos lines i c (i + t) acc := by
  intro c
  induction c with
  | zero => intro t acc; rfl
  | succ c ih =>
    intro t acc
    have hlen : (lines.drop i).length = lines.length - i := List.length_drop i lines
    simp only [eventsScan, hlen, lineAt_drop, Nat.add_assoc, Nat.sub_sub]
    by_cases hbrk : 0 < t ∧ dashPre.isPrefixOf (lineAt lines (i + t)) = true
    · obtain ⟨hb1, hb2⟩ := hbrk
      rw [if_pos (⟨hb1, hb2⟩ : 0 < t ∧ dashPre.isPrefixOf (lineAt lines (i + t)) = true),
          if_pos (⟨by omega, hb2⟩ : i < i + t
            ∧ dashPre.isPrefixOf (lineAt lines (i + t)) = true)]
    · rw [if_neg hbrk,
          if_neg (fun hc => hbrk ⟨by have := hc.1; omega, hc.2⟩)]
      cases hev : matchEventName (lineAt lines (i + t)) with
      | none => exact ih (t + 1) acc
      | some ename =>
        dsimp only
        by_cases hc2 : i + (t + 2) < lines.length
            ∧ containsSub pcPat (lineAt lines (i + (t + 1))) = true
            ∧ containsSub callsPat (lineAt lines (i + (t + 2))) = true
        · obtain ⟨hd1, hd2, hd3⟩ := hc2
          rw [if_pos (⟨by omega, hd2, hd3⟩ : t + 2 < lines.length - i
                ∧ containsSub pcPat (lineAt lines (i + (t + 1))) = true
                ∧ containsSub callsPat (lineAt lines (i + (t + 2))) = true),
              if_pos (⟨hd1, hd2, hd3⟩ : i + (t + 2) < lines.length
                ∧ containsSub pcPat (lineAt lines (i + (t + 1))) = true
                ∧ containsSub callsPat (lineAt lines (i + (t + 2))) = true),
              callsLoop_drop gos lines ename i]
          cases hcl : callsLoop gos lines ename (lines.length - (i + (t + 3)) + 1)
              (i + (t + 3)) acc with
          | none => rfl
          | some r => exact ih (t + 1) r.2
        · rw [if_neg (fun hc => hc2 ⟨by have := hc.1; omega, hc.2⟩), if_neg hc2]
          exact ih (t + 1) acc

end ParseEvents

namespace ParseEvents

theorem findOwnerAux_drop (gos : List (Line × Line)) (lines : List Line) (i : Nat) :
    ∀ c t : Nat, findOwnerAux gos (lines.drop i) c t = findOwnerAux gos lines c (i + t) := by
  intro c
  induction c with
  | zero => intro t; rfl
  | succ c ih =>
    intro t
    simp only [findOwnerAux, lineAt_drop]
    by_cases h : containsSub goPat (lineAt lines (i + t)) = true
    · rw [if_pos h, if_pos h]
    · have hi : i + (t + 1) = i + t + 1 := by omega
      rw [if_neg h, if_neg h, ih (t + 1), hi]

theorem findTypeAux_drop (lines : List Line) (i : Nat) :
    ∀ c t : Nat, findTypeAux (lines.drop i) c t = findTypeAux lines c (i + t) := by
  intro c
  induction c with
  | zero => intro t; rfl
  | succ c ih =>
    intro t
    have hi : i + (t + 1) = i + t + 1 := by omega
    simp only [findTypeAux, lineAt_drop]
    by_cases h1 : twoSpacesAlpha (lineAt lines (i + t)) = true
        ∧ ¬ findTypeAux.containsColon (lineAt lines (i + t)) = true
        ∧ ¬ mPre.isPrefixOf (strip (lineAt lines (i + t))) = true
    · rw [if_pos h1, if_pos h1]
      by_cases h2 : strip (lineAt lines (i + t)) ≠ []
          ∧ ¬ List.isPrefixOf ['-'] (strip (lineAt lines (i + t))) = true
      · rw [if_pos h2, if_pos h2]
      · rw [if_neg h2, if_neg h2, ih (t + 1), hi]
    · rw [if_neg h1, if_neg h1, ih (t + 1), hi]

theorem extractComp_drop (gos : List (Line × Line)) (lines : List Line) (i : Nat)
    (cid : Line) :
    extractComp gos lines i cid = extractComp gos (lines.drop i) 0 cid := by
  have hlen : (lines.drop i).length = lines.length - i := List.length_drop i lines
  have h20 : min (0 + 20) (lines.drop i).length - 0 = min (i + 20) lines.length - i := by
    rw [hlen]; omega
  have h50 : min (0 + 50) (lines.drop i).length - 0 = min (i + 50) lines.length - i := by
    rw [hlen]; omega
  have hev : (lines.drop i).length - 0 = lines.length - i := by
    rw [hlen]; omega
  simp only [extractComp, h20, h50, hev, findOwnerAux_drop, findTypeAux_drop,
    eventsScan_drop, Nat.add_zero]

end ParseEvents

namespace ParseEvents

/-- C9 (corrected, counterexample): agreement on the block's lines from its
header up to the next `---` marker (or end of input) does NOT determine the
extracted record.  First pair: `exC9a`/`exC9b` agree on every line from the
behaviour header (index 2, no later `---` exists) yet the records differ,
because the owner name is resolved through the identifier mapping built from
the whole input.  Second pair: `exC9c`/`exC9d` agree up to and including the
`---` boundary right after the header and have identical identifier
mappings, yet the records differ, because the type-name lookahead window
(50 lines) reads past the boundary. -/
theorem c9_region_agreement_insufficient :
    (exC9a.drop 2 = exC9b.drop 2
      ∧ (∀ n < exC9a.length, 2 < n → dashPre.isPrefixOf (lineAt exC9a n) = false)
      ∧ extractComp (pass1 exC9a none []) exC9a 2 (toL "200")
          ≠ extractComp (pass1 exC9b none []) exC9b 2 (toL "200"))
    ∧ (exC9c.take 2 = exC9d.take 2
      ∧ dashPre.isPrefixOf (lineAt exC9c 1) = true
      ∧ pass1 exC9c none [] = pass1 exC9d none []
      ∧ extractComp (pass1 exC9c none []) exC9c 0 (toL "300")
          ≠ extractComp (pass1 exC9d none []) exC9d 0 (toL "300")) := by
  exact ⟨⟨rfl, by decide, by decide⟩, ⟨rfl, rfl, rfl, by decide⟩⟩

/-- C9 (amended): the record extracted for a behaviour block depends only on
the identifier mapping together with the lines from the block's header to
the end of input: for the same mapping, two inputs whose suffixes from the
respective headers agree yield the same record. -/
theorem c9_record_from_mapping_and_suffix (gos : List (Line × Line))
    (lines₁ lines₂ : List Line) (i₁ i₂ : Nat) (cid : Line)
    (h : lines₁.drop i₁ = lines₂.drop i₂) :
    extractComp gos lines₁ i₁ cid = extractComp gos lines₂ i₂ cid := by
  rw [extractComp_drop gos lines₁ i₁ cid, extractComp_drop gos lines₂ i₂ cid, h]

/-- Witness for the amended C9: the same block at two different absolute
positions with the same suffix. -/
theorem c9_record_from_mapping_and_suffix_witness :
    ([toL "x", toL "--- !u!114 &1"].drop 1 = [toL "--- !u!114 &1"].drop 0)
    ∧ extractComp [] [toL "x", toL "--- !u!114 &1"] 1 (toL "1")
        = extractComp [] [toL "--- !u!114 &1"] 0 (toL "1") :=
  ⟨rfl, c9_record_from_mapping_and_suffix [] _ _ 1 0 (toL "1") rfl⟩

end ParseEvents
